import Mathlib

/-!
Verification of the windowing/truncation core of the `utf8-command` repository
(`src/context.rs`). Byte buffers are modelled as `List Nat` (each element a byte
value below 256); machine-integer casts are made explicit. The renderer returns
`Option (List Nat)` of Unicode codepoints: `none` models a Rust slice-indexing
panic (which aborts formatting), `some` a successfully produced string.
-/

set_option maxRecDepth 10000

namespace Utf8Command

/-- From src/context.rs `is_codepoint_boundary`: the bit trick `(byte as i8) >= -0x40`.
The cast of a byte to a signed 8-bit integer is made explicit. -/
def i8Cast (b : Nat) : Int :=
  if b % 256 < 128 then (b % 256 : Int) else (b % 256 : Int) - 256

/-- src/context.rs lines 130-135. -/
def is_codepoint_boundary (byte : Nat) : Bool :=
  decide (-64 ≤ i8Cast byte)

/-- Rust `Iterator::position`: index of the first element satisfying `p`. -/
def position (p : Nat → Bool) : List Nat → Option Nat
  | [] => none
  | x :: xs => if p x then some 0 else (position p xs).map (fun i => i + 1)

/-- Rust `Iterator::rposition`: index (from the front) of the last element satisfying `p`. -/
def rposition (p : Nat → Bool) : List Nat → Option Nat
  | [] => none
  | x :: xs =>
    match rposition p xs with
    | some i => some (i + 1)
    | none => if p x then some 0 else none

/-- src/context.rs `adjust_index_down`: scan `bytes[index.saturating_sub(3)..=index]`
backwards for a codepoint-boundary byte. Rust's `saturating_sub` is `Nat`
subtraction; the inclusive slice is `drop`/`take` (call sites keep `index`
within bounds, where the two agree with Rust slicing). -/
def adjust_index_down (bytes : List Nat) (index : Nat) : Option Nat :=
  (rposition is_codepoint_boundary
      ((bytes.drop (index - 3)).take (index + 1 - (index - 3)))).map
    (fun i => i + (index - 3))

/-- src/context.rs `adjust_index_up`: scan `bytes[index..min(index + 4, len)]`
forwards for a codepoint-boundary byte. -/
def adjust_index_up (bytes : List Nat) (index : Nat) : Option Nat :=
  (position is_codepoint_boundary
      ((bytes.drop index).take (min (index + 4) bytes.length - index))).map
    (fun i => i + index)

/-- src/context.rs `FromUtf8ErrorContext::window_unadjusted` (lines 46-72).
`error_index` is `self.inner.utf8_error().valid_up_to()`, `max_size` the budget
(the Rust `half_window` binding is inlined as `max_size / 2`); `checked_sub`
returning `None` is the test `error_index < max_size / 2`. -/
def window_unadjusted (bytes : List Nat) (error_index max_size : Nat) : Nat × Nat :=
  if bytes.length ≤ max_size then (0, bytes.length)
  else if bytes.length ≤ error_index + max_size / 2 then
    (bytes.length - max_size, bytes.length)
  else if error_index < max_size / 2 then
    (0, max_size)
  else
    (error_index - max_size / 2, error_index + max_size / 2)

/-- src/context.rs `window`, lines 24-31: the mutation of `range.start`
(adjust upward, else downward, else leave unadjusted). -/
def windowStart (bytes : List Nat) (s : Nat) : Nat :=
  if s ≠ 0 ∧ is_codepoint_boundary (bytes.getD s 0) = false then
    ((adjust_index_up bytes s).orElse (fun _ => adjust_index_down bytes s)).getD s
  else s

/-- src/context.rs `window`, lines 33-38: the mutation of `range.end`
(adjust downward, else upward, else leave unadjusted). -/
def windowStop (bytes : List Nat) (t : Nat) : Nat :=
  if t ≠ bytes.length ∧ is_codepoint_boundary (bytes.getD t 0) = false then
    ((adjust_index_down bytes t).orElse (fun _ => adjust_index_up bytes t)).getD t
  else t

/-- src/context.rs `FromUtf8ErrorContext::window` (lines 20-41): nudge both ends
of the unadjusted window onto codepoint boundaries when possible. -/
def window (bytes : List Nat) (error_index max_size : Nat) : Nat × Nat :=
  (windowStart bytes (window_unadjusted bytes error_index max_size).1,
   windowStop bytes (window_unadjusted bytes error_index max_size).2)

/-- A byte that may continue a multi-byte UTF-8 sequence: `0x80..=0xBF`. -/
def isCont (b : Nat) : Bool := 128 ≤ b && b < 192

/-- Allowed first continuation after a three-byte lead, per the Rust standard
library's UTF-8 validation (`0xE0` excludes overlongs, `0xED` surrogates). -/
def validCont3 (b c1 : Nat) : Bool :=
  if b = 224 then 160 ≤ c1 && c1 < 192
  else if b = 237 then 128 ≤ c1 && c1 < 160
  else isCont c1

/-- Allowed first continuation after a four-byte lead (`0xF0` excludes
overlongs, `0xF4` values above U+10FFFF). -/
def validCont4 (b c1 : Nat) : Bool :=
  if b = 240 then 144 ≤ c1 && c1 < 192
  else if b = 244 then 128 ≤ c1 && c1 < 144
  else isCont c1

/-- `String::from_utf8_lossy` from the Rust standard library: decode to
codepoints, replacing each maximal invalid subpart with U+FFFD (65533) per the
standard library's error lengths, and an incomplete final sequence with a
single U+FFFD. Fuel-structured (each step consumes at least one byte and one
unit of fuel) so the kernel can evaluate it. -/
def utf8LossyCore : Nat → List Nat → List Nat
  | 0, _ => []
  | _, [] => []
  | fuel + 1, b :: rest =>
    if b < 128 then b :: utf8LossyCore fuel rest
    else if b < 194 then 65533 :: utf8LossyCore fuel rest
    else if b < 224 then
      match rest with
      | [] => [65533]
      | c1 :: rest2 =>
        if isCont c1 then ((b % 32) * 64 + c1 % 64) :: utf8LossyCore fuel rest2
        else 65533 :: utf8LossyCore fuel rest
    else if b < 240 then
      match rest with
      | [] => [65533]
      | c1 :: rest2 =>
        if validCont3 b c1 then
          match rest2 with
          | [] => [65533]
          | c2 :: rest3 =>
            if isCont c2 then
              ((b % 16) * 4096 + (c1 % 64) * 64 + c2 % 64) :: utf8LossyCore fuel rest3
            else 65533 :: utf8LossyCore fuel rest2
        else 65533 :: utf8LossyCore fuel rest
    else if b < 245 then
      match rest with
      | [] => [65533]
      | c1 :: rest2 =>
        if validCont4 b c1 then
          match rest2 with
          | [] => [65533]
          | c2 :: rest3 =>
            if isCont c2 then
              match rest3 with
              | [] => [65533]
              | c3 :: rest4 =>
                if isCont c3 then
                  ((b % 8) * 262144 + (c1 % 64) * 4096 + (c2 % 64) * 64 + c3 % 64)
                    :: utf8LossyCore fuel rest4
                else 65533 :: utf8LossyCore fuel rest3
            else 65533 :: utf8LossyCore fuel rest2
        else 65533 :: utf8LossyCore fuel rest
    else 65533 :: utf8LossyCore fuel rest

/-- `String::from_utf8_lossy`: run the decoder with enough fuel. -/
def utf8Lossy (bytes : List Nat) : List Nat := utf8LossyCore bytes.length bytes

/-- Lower-case hexadecimal digit, as an ASCII code. -/
def hexDigit (n : Nat) : Nat := if n < 10 then 48 + n else 87 + n

/-- One codepoint under Rust's `Debug` formatting for `str` (the `{:?}` format
used by the renderer): escape quote, backslash, and control characters. -/
def escapeChar (c : Nat) : List Nat :=
  if c = 34 then [92, 34]
  else if c = 92 then [92, 92]
  else if c = 10 then [92, 110]
  else if c = 13 then [92, 114]
  else if c = 9 then [92, 116]
  else if c < 32 then
    [92, 117, 123] ++ (if c < 16 then [hexDigit c] else [49, hexDigit (c - 16)]) ++ [125]
  else if c = 127 then [92, 117, 123, 55, 102, 125]
  else [c]

/-- Rust `{:?}` of a string: double quotes around the escaped codepoints. -/
def quoteDebug (cps : List Nat) : List Nat :=
  34 :: (cps.map escapeChar).flatten ++ [34]

/-- Decimal digits of `n` as ASCII codes (Rust `Display` for `usize`),
fuel-structured so that the kernel can evaluate it. -/
def natDigitsCore : Nat → Nat → List Nat
  | 0, _ => []
  | fuel + 1, n => if n < 10 then [48 + n] else natDigitsCore fuel (n / 10) ++ [48 + n % 10]

/-- Decimal digits of `n` as ASCII codes. -/
def natDigits (n : Nat) : List Nat := natDigitsCore (n + 1) n

/-- src/context.rs `ByteCount` `Display` (lines 137-147): singular for 1,
plural otherwise. -/
def byteCount (n : Nat) : List Nat :=
  if n = 1 then [91, 49, 32, 98, 121, 116, 101, 93]
  else 91 :: (natDigits n ++ [32, 98, 121, 116, 101, 115, 93])

/-- Rust slice indexing `&bytes[start..stop]`: `none` models the panic when the
range is inverted or out of bounds. -/
def sliceRange (bytes : List Nat) (start stop : Nat) : Option (List Nat) :=
  if start ≤ stop ∧ stop ≤ bytes.length then some ((bytes.drop start).take (stop - start))
  else none

/-- src/context.rs `impl Display for FromUtf8ErrorContext` (lines 103-128):
the full rendered excerpt, `none` when slicing the window panics. -/
def contextDisplay (bytes : List Nat) (error_index max_size : Nat) : Option (List Nat) :=
  if bytes.length ≤ max_size then some (quoteDebug (utf8Lossy bytes))
  else
    match sliceRange bytes (window bytes error_index max_size).1
        (window bytes error_index max_size).2 with
    | none => none
    | some excerpt =>
      some ((if (window bytes error_index max_size).1 ≠ 0 then
          byteCount (window bytes error_index max_size).1 ++ [32] else [])
        ++ quoteDebug (utf8Lossy excerpt)
        ++ (if bytes.length - (window bytes error_index max_size).2 ≠ 0 then
          [32] ++ byteCount (bytes.length - (window bytes error_index max_size).2) else []))

/-- Spec-side: index `j` holds a codepoint-boundary byte of the buffer. -/
def boundaryByteAt (bytes : List Nat) (j : Nat) : Bool :=
  decide (j < bytes.length) && is_codepoint_boundary (bytes.getD j 0)

/-- Spec-side: nearest boundary byte scanning at most 3 bytes upward from `i`
(the spec's description of the shrinking search for `start`). -/
def specScanUp (bytes : List Nat) (i : Nat) : Option Nat :=
  if boundaryByteAt bytes i then some i
  else if boundaryByteAt bytes (i + 1) then some (i + 1)
  else if boundaryByteAt bytes (i + 2) then some (i + 2)
  else if boundaryByteAt bytes (i + 3) then some (i + 3)
  else none

/-- Spec-side: nearest boundary byte scanning at most 3 bytes downward from `i`. -/
def specScanDown (bytes : List Nat) (i : Nat) : Option Nat :=
  if boundaryByteAt bytes i then some i
  else if boundaryByteAt bytes (i - 1) then some (i - 1)
  else if boundaryByteAt bytes (i - 2) then some (i - 2)
  else if boundaryByteAt bytes (i - 3) then some (i - 3)
  else none

/-- Spec-side: the unadjusted window exactly as the spec words it, a case
analysis on the buffer length, error offset and budget in priority order. -/
def window_unadjusted_spec (len error_offset budget : Nat) : Nat × Nat :=
  if len ≤ error_offset + budget / 2 then (len - budget, len)
  else if error_offset < budget / 2 then (0, budget)
  else (error_offset - budget / 2, error_offset + budget / 2)

/-- Codepoints of a string literal, for stating the marker-format claims. -/
def strCodes (s : String) : List Nat := s.data.map Char.toNat

/-! ## Characterizations of the scans -/

lemma position_cons_pos {p : Nat → Bool} {x : Nat} {xs : List Nat} (hx : p x = true) :
    position p (x :: xs) = some 0 := by
  simp [position, hx]

lemma position_cons_neg {p : Nat → Bool} {x : Nat} {xs : List Nat} (hx : p x = false) :
    position p (x :: xs) = (position p xs).map (fun i => i + 1) := by
  simp [position, hx]

lemma rposition_cons_some {p : Nat → Bool} {x i : Nat} {xs : List Nat}
    (hr : rposition p xs = some i) : rposition p (x :: xs) = some (i + 1) := by
  simp [rposition, hr]

lemma rposition_cons_none {p : Nat → Bool} {x : Nat} {xs : List Nat}
    (hr : rposition p xs = none) :
    rposition p (x :: xs) = if p x then some 0 else none := by
  simp [rposition, hr]

lemma position_eq_some {p : Nat → Bool} {l : List Nat} {k : Nat} :
    position p l = some k ↔
      k < l.length ∧ p (l.getD k 0) = true ∧ ∀ m, m < k → p (l.getD m 0) = false := by
  induction l generalizing k with
  | nil => simp [position]
  | cons x xs ih =>
    rcases hx : p x with hv | hv
    · rw [position_cons_neg hx]
      cases k with
      | zero =>
        simp only [List.getD_cons_zero, List.length_cons]
        constructor
        · intro h
          rcases Option.map_eq_some'.mp h with ⟨j, -, hj⟩
          omega
        · rintro ⟨-, h2, -⟩
          rw [hx] at h2
          cases h2
      | succ k =>
        simp only [List.length_cons, List.getD_cons_succ]
        constructor
        · intro h
          rcases Option.map_eq_some'.mp h with ⟨j, hj, hjk⟩
          have hk : j = k := by omega
          subst hk
          rcases ih.mp hj with ⟨h1, h2, h3⟩
          refine ⟨by omega, h2, ?_⟩
          intro m hm
          cases m with
          | zero => rw [List.getD_cons_zero]; exact hx
          | succ m => rw [List.getD_cons_succ]; exact h3 m (by omega)
        · rintro ⟨h1, h2, h3⟩
          have hxs : position p xs = some k := by
            refine ih.mpr ⟨by omega, h2, ?_⟩
            intro m hm
            have := h3 (m + 1) (by omega)
            rwa [List.getD_cons_succ] at this
          rw [hxs]
          rfl
    · rw [position_cons_pos hx]
      cases k with
      | zero =>
        simp only [List.getD_cons_zero, List.length_cons]
        exact ⟨fun _ => ⟨by omega, hx, fun m hm => absurd hm (by omega)⟩, fun _ => by simp⟩
      | succ k =>
        constructor
        · intro h
          exact absurd (Option.some.inj h) (by omega)
        · rintro ⟨-, -, hall⟩
          have h0 := hall 0 (Nat.succ_pos k)
          rw [List.getD_cons_zero, hx] at h0
          cases h0

lemma position_eq_none {p : Nat → Bool} {l : List Nat} :
    position p l = none ↔ ∀ m, m < l.length → p (l.getD m 0) = false := by
  induction l with
  | nil => simp [position]
  | cons x xs ih =>
    rcases hx : p x with hv | hv
    · rw [position_cons_neg hx]
      simp only [Option.map_eq_none', ih, List.length_cons]
      constructor
      · intro h m hm
        cases m with
        | zero => rw [List.getD_cons_zero]; exact hx
        | succ m => rw [List.getD_cons_succ]; exact h m (by omega)
      · intro h m hm
        have := h (m + 1) (by omega)
        rwa [List.getD_cons_succ] at this
    · rw [position_cons_pos hx]
      constructor
      · intro h; cases h
      · intro h
        have h0 := h 0 (by simp)
        rw [List.getD_cons_zero, hx] at h0
        cases h0

lemma rposition_mem {p : Nat → Bool} {l : List Nat} {k : Nat} (h : rposition p l = some k) :
    k < l.length ∧ p (l.getD k 0) = true := by
  induction l generalizing k with
  | nil => cases h
  | cons x xs ih =>
    cases hr : rposition p xs with
    | some i =>
      rw [rposition_cons_some hr] at h
      have hk : k = i + 1 := (Option.some.inj h).symm
      subst hk
      rcases ih hr with ⟨h1, h2⟩
      exact ⟨by simp; omega, by rwa [List.getD_cons_succ]⟩
    | none =>
      rw [rposition_cons_none hr] at h
      rcases hx : p x with hv | hv
      · rw [if_neg (by simp [hx])] at h
        cases h
      · rw [if_pos hx] at h
        have hk : k = 0 := (Option.some.inj h).symm
        subst hk
        exact ⟨by simp, by rwa [List.getD_cons_zero]⟩

lemma rposition_eq_none {p : Nat → Bool} {l : List Nat} :
    rposition p l = none ↔ ∀ m, m < l.length → p (l.getD m 0) = false := by
  induction l with
  | nil => simp [rposition]
  | cons x xs ih =>
    cases hr : rposition p xs with
    | some i =>
      rcases rposition_mem hr with ⟨h1, h2⟩
      rw [rposition_cons_some hr]
      constructor
      · intro h; cases h
      · intro h
        have := h (i + 1) (by simp; omega)
        rw [List.getD_cons_succ, h2] at this
        cases this
    | none =>
      have hnall := ih.mp hr
      rcases hx : p x with hv | hv
      · rw [rposition_cons_none hr, if_neg (by simp [hx])]
        constructor
        · intro _ m hm
          cases m with
          | zero => rw [List.getD_cons_zero]; exact hx
          | succ m => rw [List.getD_cons_succ]; exact hnall m (by simp at hm; omega)
        · intro _
          rfl
      · rw [rposition_cons_none hr, if_pos hx]
        constructor
        · intro h; cases h
        · intro h
          have h0 := h 0 (by simp)
          rw [List.getD_cons_zero, hx] at h0
          cases h0

lemma rposition_eq_some {p : Nat → Bool} {l : List Nat} {k : Nat} :
    rposition p l = some k ↔
      k < l.length ∧ p (l.getD k 0) = true ∧
        ∀ m, k < m → m < l.length → p (l.getD m 0) = false := by
  induction l generalizing k with
  | nil => simp [rposition]
  | cons x xs ih =>
    cases hr : rposition p xs with
    | some i =>
      rcases ih.mp hr with ⟨h1, h2, h3⟩
      rw [rposition_cons_some hr]
      constructor
      · intro h
        have hk : k = i + 1 := (Option.some.inj h).symm
        subst hk
        refine ⟨by simp; omega, by rwa [List.getD_cons_succ], ?_⟩
        intro m hm1 hm2
        cases m with
        | zero => omega
        | succ m =>
          rw [List.getD_cons_succ]
          exact h3 m (by omega) (by simp at hm2; omega)
      · rintro ⟨hk1, hk2, hk3⟩
        cases k with
        | zero =>
          have := hk3 (i + 1) (by omega) (by simp; omega)
          rw [List.getD_cons_succ, h2] at this
          cases this
        | succ k =>
          rw [List.getD_cons_succ] at hk2
          have hik : k = i := by
            rcases Nat.lt_trichotomy k i with h | h | h
            · have := hk3 (i + 1) (by omega) (by simp; omega)
              rw [List.getD_cons_succ, h2] at this
              cases this
            · exact h
            · have := h3 k h (by simp at hk1; omega)
              rw [hk2] at this
              cases this
          subst hik
          rfl
    | none =>
      have hnall := rposition_eq_none.mp hr
      rcases hx : p x with hv | hv
      · rw [rposition_cons_none hr, if_neg (by simp [hx])]
        constructor
        · intro h; cases h
        · rintro ⟨hk1, hk2, -⟩
          cases k with
          | zero =>
            rw [List.getD_cons_zero, hx] at hk2
            cases hk2
          | succ k =>
            rw [List.getD_cons_succ] at hk2
            have := hnall k (by simp at hk1; omega)
            rw [hk2] at this
            cases this
      · rw [rposition_cons_none hr, if_pos hx]
        constructor
        · intro h
          have hk : k = 0 := (Option.some.inj h).symm
          subst hk
          refine ⟨by simp, by rwa [List.getD_cons_zero], ?_⟩
          intro m hm1 hm2
          cases m with
          | zero => omega
          | succ m =>
            rw [List.getD_cons_succ]
            exact hnall m (by simp at hm2; omega)
        · rintro ⟨hk1, hk2, -⟩
          cases k with
          | zero => rfl
          | succ k =>
            rw [List.getD_cons_succ] at hk2
            have := hnall k (by simp at hk1; omega)
            rw [hk2] at this
            cases this

lemma slice_getD {l : List Nat} {i t m : Nat} (h : m < t) :
    ((l.drop i).take t).getD m 0 = l.getD (i + m) 0 := by
  simp [List.getD_eq_getElem?_getD, List.getElem?_take_of_lt h, List.getElem?_drop]

lemma slice_length {l : List Nat} {i t : Nat} :
    ((l.drop i).take t).length = min t (l.length - i) := by
  simp

lemma boundaryByteAt_false_of_ge {bytes : List Nat} {j : Nat} (h : bytes.length ≤ j) :
    boundaryByteAt bytes j = false := by
  unfold boundaryByteAt
  rw [decide_eq_false (by omega), Bool.false_and]

lemma boundaryByteAt_false_of_not {bytes : List Nat} {j : Nat}
    (h : is_codepoint_boundary (bytes.getD j 0) = false) : boundaryByteAt bytes j = false := by
  unfold boundaryByteAt
  rw [h, Bool.and_false]

lemma boundaryByteAt_true_of {bytes : List Nat} {j : Nat} (hl : j < bytes.length)
    (h : is_codepoint_boundary (bytes.getD j 0) = true) : boundaryByteAt bytes j = true := by
  unfold boundaryByteAt
  rw [h, Bool.and_true, decide_eq_true hl]

/-- The source's upward adjustment is exactly the spec's nearest-boundary
scan of at most 3 bytes upward. -/
lemma adjust_index_up_eq (bytes : List Nat) (i : Nat) :
    adjust_index_up bytes i = specScanUp bytes i := by
  unfold adjust_index_up
  cases hp : position is_codepoint_boundary
      ((bytes.drop i).take (min (i + 4) bytes.length - i)) with
  | none =>
    have hn := position_eq_none.mp hp
    simp only [slice_length] at hn
    have keyN : ∀ jj, i ≤ jj → jj ≤ i + 3 → boundaryByteAt bytes jj = false := by
      intro jj h1 h2
      by_cases hjl : jj < bytes.length
      · have hmt : jj - i < min (i + 4) bytes.length - i := by omega
        have := hn (jj - i) (by omega)
        rw [slice_getD hmt] at this
        have hE : i + (jj - i) = jj := by omega
        rw [hE] at this
        exact boundaryByteAt_false_of_not this
      · exact boundaryByteAt_false_of_ge (by omega)
    have k0 := keyN i (by omega) (by omega)
    have k1 := keyN (i + 1) (by omega) (by omega)
    have k2 := keyN (i + 2) (by omega) (by omega)
    have k3 := keyN (i + 3) (by omega) (by omega)
    simp [specScanUp, k0, k1, k2, k3]
  | some k =>
    rcases position_eq_some.mp hp with ⟨hk1, hk2, hk3⟩
    simp only [slice_length] at hk1
    have hkt : k < min (i + 4) bytes.length - i := by omega
    rw [slice_getD hkt] at hk2
    have hlen : i + k < bytes.length := by omega
    have hjb : boundaryByteAt bytes (i + k) = true := boundaryByteAt_true_of hlen hk2
    have key : ∀ m, m < k → boundaryByteAt bytes (i + m) = false := by
      intro m hm
      have := hk3 m hm
      rw [slice_getD (by omega)] at this
      exact boundaryByteAt_false_of_not this
    have hk4 : k ≤ 3 := by omega
    interval_cases k
    · simp only [Nat.add_zero] at hjb
      simp [specScanUp, hjb]
    · have b0 : boundaryByteAt bytes i = false := by
        have := key 0 (by omega); simpa using this
      simp [specScanUp, b0, hjb, Nat.add_comm]
    · have b0 : boundaryByteAt bytes i = false := by
        have := key 0 (by omega); simpa using this
      have b1 : boundaryByteAt bytes (i + 1) = false := key 1 (by omega)
      simp [specScanUp, b0, b1, hjb, Nat.add_comm]
    · have b0 : boundaryByteAt bytes i = false := by
        have := key 0 (by omega); simpa using this
      have b1 : boundaryByteAt bytes (i + 1) = false := key 1 (by omega)
      have b2 : boundaryByteAt bytes (i + 2) = false := key 2 (by omega)
      simp [specScanUp, b0, b1, b2, hjb, Nat.add_comm]

/-- The source's downward adjustment is exactly the spec's nearest-boundary
scan of at most 3 bytes downward. -/
lemma adjust_index_down_eq (bytes : List Nat) (i : Nat) :
    adjust_index_down bytes i = specScanDown bytes i := by
  unfold adjust_index_down
  cases hp : rposition is_codepoint_boundary
      ((bytes.drop (i - 3)).take (i + 1 - (i - 3))) with
  | none =>
    have hn := rposition_eq_none.mp hp
    simp only [slice_length] at hn
    have keyN : ∀ jj, i - 3 ≤ jj → jj ≤ i → boundaryByteAt bytes jj = false := by
      intro jj h1 h2
      by_cases hjl : jj < bytes.length
      · have hmt : jj - (i - 3) < i + 1 - (i - 3) := by omega
        have := hn (jj - (i - 3)) (by omega)
        rw [slice_getD hmt] at this
        have hE : i - 3 + (jj - (i - 3)) = jj := by omega
        rw [hE] at this
        exact boundaryByteAt_false_of_not this
      · exact boundaryByteAt_false_of_ge (by omega)
    have k0 := keyN i (by omega) (by omega)
    have k1 := keyN (i - 1) (by omega) (by omega)
    have k2 := keyN (i - 2) (by omega) (by omega)
    have k3 := keyN (i - 3) (by omega) (by omega)
    simp [specScanDown, k0, k1, k2, k3]
  | some k =>
    rcases rposition_eq_some.mp hp with ⟨hk1, hk2, hk3⟩
    simp only [slice_length] at hk1 hk3
    have hkt : k < i + 1 - (i - 3) := by omega
    rw [slice_getD hkt] at hk2
    have hlen : i - 3 + k < bytes.length := by omega
    have hji : i - 3 + k ≤ i := by omega
    have hjb : boundaryByteAt bytes (i - 3 + k) = true := boundaryByteAt_true_of hlen hk2
    have key : ∀ jj, i - 3 + k < jj → jj ≤ i → boundaryByteAt bytes jj = false := by
      intro jj hgt hle
      by_cases hjl : jj < bytes.length
      · have hmt : jj - (i - 3) < i + 1 - (i - 3) := by omega
        have := hk3 (jj - (i - 3)) (by omega) (by omega)
        rw [slice_getD hmt] at this
        have hE : i - 3 + (jj - (i - 3)) = jj := by omega
        rw [hE] at this
        exact boundaryByteAt_false_of_not this
      · exact boundaryByteAt_false_of_ge (by omega)
    have hd4 : i - (i - 3 + k) = 0 ∨ i - (i - 3 + k) = 1 ∨ i - (i - 3 + k) = 2 ∨
        i - (i - 3 + k) = 3 := by omega
    rcases hd4 with hd | hd | hd | hd
    · have hE : i - 3 + k = i := by omega
      rw [hE] at hjb
      have hkv : k + (i - 3) = i := by omega
      simp [specScanDown, hjb, hkv]
    · have b0 : boundaryByteAt bytes i = false := key i (by omega) (by omega)
      have hE : i - 1 = i - 3 + k := by omega
      have hkv : k + (i - 3) = i - 1 := by omega
      simp [specScanDown, b0, hE, hjb, hkv]
    · have b0 : boundaryByteAt bytes i = false := key i (by omega) (by omega)
      have b1 : boundaryByteAt bytes (i - 1) = false := key (i - 1) (by omega) (by omega)
      have hE : i - 2 = i - 3 + k := by omega
      have hkv : k + (i - 3) = i - 2 := by omega
      simp [specScanDown, b0, b1, hE, hjb, hkv]
    · have b0 : boundaryByteAt bytes i = false := key i (by omega) (by omega)
      have b1 : boundaryByteAt bytes (i - 1) = false := key (i - 1) (by omega) (by omega)
      have b2 : boundaryByteAt bytes (i - 2) = false := key (i - 2) (by omega) (by omega)
      have hk0 : k = 0 := by omega
      subst hk0
      have hjbv : boundaryByteAt bytes (i - 3) = true := by simpa using hjb
      simp [specScanDown, b0, b1, b2, hjbv]

/-! ## Consequences for the window -/

lemma specScanUp_some {bytes : List Nat} {i j : Nat} (h : specScanUp bytes i = some j) :
    boundaryByteAt bytes j = true ∧ i ≤ j ∧ j ≤ i + 3 := by
  unfold specScanUp at h
  split_ifs at h with h1 h2 h3 h4
  all_goals cases h
  all_goals exact ⟨by assumption, by omega, by omega⟩

lemma specScanDown_some {bytes : List Nat} {i j : Nat} (h : specScanDown bytes i = some j) :
    boundaryByteAt bytes j = true ∧ i - 3 ≤ j ∧ j ≤ i := by
  unfold specScanDown at h
  split_ifs at h with h1 h2 h3 h4
  all_goals cases h
  all_goals exact ⟨by assumption, by omega, by omega⟩

lemma boundary_of_boundaryByteAt {bytes : List Nat} {j : Nat}
    (h : boundaryByteAt bytes j = true) :
    is_codepoint_boundary (bytes.getD j 0) = true := by
  unfold boundaryByteAt at h
  exact (Bool.and_eq_true_iff.mp h).2

lemma windowStart_bounds (bytes : List Nat) (s : Nat) :
    s - 3 ≤ windowStart bytes s ∧ windowStart bytes s ≤ s + 3 := by
  unfold windowStart
  split_ifs with h
  · rw [adjust_index_up_eq, adjust_index_down_eq]
    cases hu : specScanUp bytes s with
    | some j =>
      rcases specScanUp_some hu with ⟨-, h1, h2⟩
      simp [Option.orElse]
      all_goals omega
    | none =>
      cases hd : specScanDown bytes s with
      | some j =>
        rcases specScanDown_some hd with ⟨-, h1, h2⟩
        simp [Option.orElse]
        all_goals omega
      | none =>
        simp [Option.orElse]
  · omega

lemma windowStop_bounds (bytes : List Nat) (t : Nat) :
    t - 3 ≤ windowStop bytes t ∧ windowStop bytes t ≤ t + 3 := by
  unfold windowStop
  split_ifs with h
  · rw [adjust_index_up_eq, adjust_index_down_eq]
    cases hd : specScanDown bytes t with
    | some j =>
      rcases specScanDown_some hd with ⟨-, h1, h2⟩
      simp [Option.orElse]
      all_goals omega
    | none =>
      cases hu : specScanUp bytes t with
      | some j =>
        rcases specScanUp_some hu with ⟨-, h1, h2⟩
        simp [Option.orElse]
        all_goals omega
      | none =>
        simp [Option.orElse]
  · omega

lemma windowStart_boundary (bytes : List Nat) (s : Nat) :
    windowStart bytes s = 0 ∨
      is_codepoint_boundary (bytes.getD (windowStart bytes s) 0) = true ∨
      (windowStart bytes s = s ∧ adjust_index_up bytes s = none ∧
        adjust_index_down bytes s = none) := by
  unfold windowStart
  split_ifs with h
  · rw [adjust_index_up_eq, adjust_index_down_eq]
    cases hu : specScanUp bytes s with
    | some j =>
      rcases specScanUp_some hu with ⟨hb, -, -⟩
      right; left
      simpa [Option.orElse] using boundary_of_boundaryByteAt hb
    | none =>
      cases hd : specScanDown bytes s with
      | some j =>
        rcases specScanDown_some hd with ⟨hb, -, -⟩
        right; left
        simpa [Option.orElse] using boundary_of_boundaryByteAt hb
      | none =>
        right; right
        exact ⟨by simp [Option.orElse], rfl, rfl⟩
  · rcases Decidable.not_and_iff_or_not.mp h with h0 | hbd
    · left; omega
    · right; left
      simpa using hbd

lemma windowStop_boundary (bytes : List Nat) (t : Nat) :
    windowStop bytes t = bytes.length ∨
      is_codepoint_boundary (bytes.getD (windowStop bytes t) 0) = true ∨
      (windowStop bytes t = t ∧ adjust_index_down bytes t = none ∧
        adjust_index_up bytes t = none) := by
  unfold windowStop
  split_ifs with h
  · rw [adjust_index_up_eq, adjust_index_down_eq]
    cases hd : specScanDown bytes t with
    | some j =>
      rcases specScanDown_some hd with ⟨hb, -, -⟩
      right; left
      simpa [Option.orElse] using boundary_of_boundaryByteAt hb
    | none =>
      cases hu : specScanUp bytes t with
      | some j =>
        rcases specScanUp_some hu with ⟨hb, -, -⟩
        right; left
        simpa [Option.orElse] using boundary_of_boundaryByteAt hb
      | none =>
        right; right
        exact ⟨by simp [Option.orElse], rfl, rfl⟩
  · rcases Decidable.not_and_iff_or_not.mp h with h0 | hbd
    · left; omega
    · right; left
      simpa using hbd


lemma window_unadjusted_le (bytes : List Nat) (e budget : Nat) (he : e ≤ bytes.length)
    (hb : 1 ≤ budget) :
    (window_unadjusted bytes e budget).1 ≤ e ∧ e ≤ (window_unadjusted bytes e budget).2 := by
  unfold window_unadjusted
  split_ifs with h1 h2 h3 <;> dsimp only <;> omega

lemma window_unadjusted_facts (bytes : List Nat) (e budget : Nat)
    (hlen : budget < bytes.length) :
    (window_unadjusted bytes e budget).2 - (window_unadjusted bytes e budget).1 ≤ budget ∧
      budget - 1 ≤ (window_unadjusted bytes e budget).2 - (window_unadjusted bytes e budget).1 ∧
      (window_unadjusted bytes e budget).1 ≤ (window_unadjusted bytes e budget).2 ∧
      (window_unadjusted bytes e budget).2 ≤ bytes.length := by
  unfold window_unadjusted
  split_ifs with h1 h2 h3 <;> dsimp only <;> omega

/-! ## Facts about the renderer -/

lemma contextDisplay_some {bytes : List Nat} {e budget : Nat} {out : List Nat}
    (hlen : budget < bytes.length) (h : contextDisplay bytes e budget = some out) :
    (window bytes e budget).1 ≤ (window bytes e budget).2 ∧
      (window bytes e budget).2 ≤ bytes.length ∧
      out = (if (window bytes e budget).1 ≠ 0 then
          byteCount (window bytes e budget).1 ++ [32] else [])
        ++ quoteDebug (utf8Lossy ((bytes.drop (window bytes e budget).1).take
            ((window bytes e budget).2 - (window bytes e budget).1)))
        ++ (if bytes.length - (window bytes e budget).2 ≠ 0 then
          [32] ++ byteCount (bytes.length - (window bytes e budget).2) else []) := by
  unfold contextDisplay at h
  rw [if_neg (by omega)] at h
  cases hs : sliceRange bytes (window bytes e budget).1 (window bytes e budget).2 with
  | none =>
    rw [hs] at h
    cases h
  | some ex =>
    rw [hs] at h
    unfold sliceRange at hs
    split_ifs at hs with hcond
    · rcases Option.some.inj hs with rfl
      rcases Option.some.inj h with rfl
      exact ⟨hcond.1, hcond.2, rfl⟩

lemma byteCount_head (n : Nat) : (byteCount n).head? = some 91 := by
  unfold byteCount
  split_ifs <;> rfl

lemma byteCount_ne_nil (n : Nat) : byteCount n ≠ [] := by
  intro h
  have := byteCount_head n
  rw [h] at this
  cases this

lemma byteCount_getLast (n : Nat) : (byteCount n).getLast? = some 93 := by
  unfold byteCount
  split_ifs
  · rfl
  · rw [show (91 : Nat) :: (natDigits n ++ [32, 98, 121, 116, 101, 115, 93]) =
        ([91] ++ natDigits n) ++ [32, 98, 121, 116, 101, 115, 93] from by simp]
    rw [List.getLast?_append_of_ne_nil _ (by simp)]
    rfl

lemma quoteDebug_head (l : List Nat) : (quoteDebug l).head? = some 34 := rfl

lemma quoteDebug_ne_nil (l : List Nat) : quoteDebug l ≠ [] := by
  unfold quoteDebug
  simp

lemma quoteDebug_getLast (l : List Nat) : (quoteDebug l).getLast? = some 34 := by
  unfold quoteDebug
  rw [List.getLast?_append_of_ne_nil _ (by simp : ([34] : List Nat) ≠ [])]
  rfl

/-! ## The claims -/

/-- C1: the spec claims that, under the stated preconditions (any buffer, any
`error_offset` with a valid UTF-8 prefix, any budget at least 1), formatting
always completes and the display range always satisfies
`0 ≤ start ≤ end ≤ length`. The code violates this: on the buffer
`[0x61, 0x80, 0x62]` (valid prefix of length 1, so `error_offset = 1`) with
budget 1, the adjusted window is the inverted range `2..0` (start is adjusted
up to 2, end down to 0), and in Rust `&bytes[2..0]` panics, so the `Display`
implementation aborts; the embedding renders this as `contextDisplay = none`. -/
theorem claim1_inverted_range_aborts_display :
    window [97, 128, 98] 1 1 = (2, 0) ∧ contextDisplay [97, 128, 98] 1 1 = none := by
  decide

/-- C2: the selected range's start and end each land on a codepoint boundary
(a non-continuation byte, or index 0 or the buffer length), except that an
endpoint for which both adjustment searches are exhausted keeps its unadjusted
value. -/
theorem claim2_boundary_safety (bytes : List Nat) (e budget : Nat)
    (hb : 1 ≤ budget) (he : e ≤ bytes.length) :
    ((window bytes e budget).1 = 0 ∨ (window bytes e budget).1 = bytes.length ∨
      is_codepoint_boundary (bytes.getD (window bytes e budget).1 0) = true ∨
      ((window bytes e budget).1 = (window_unadjusted bytes e budget).1 ∧
        adjust_index_up bytes (window_unadjusted bytes e budget).1 = none ∧
        adjust_index_down bytes (window_unadjusted bytes e budget).1 = none)) ∧
    ((window bytes e budget).2 = 0 ∨ (window bytes e budget).2 = bytes.length ∨
      is_codepoint_boundary (bytes.getD (window bytes e budget).2 0) = true ∨
      ((window bytes e budget).2 = (window_unadjusted bytes e budget).2 ∧
        adjust_index_down bytes (window_unadjusted bytes e budget).2 = none ∧
        adjust_index_up bytes (window_unadjusted bytes e budget).2 = none)) := by
  constructor
  · have h := windowStart_boundary bytes (window_unadjusted bytes e budget).1
    simp only [window]
    rcases h with h | h | h
    · exact Or.inl h
    · exact Or.inr (Or.inr (Or.inl h))
    · exact Or.inr (Or.inr (Or.inr h))
  · have h := windowStop_boundary bytes (window_unadjusted bytes e budget).2
    simp only [window]
    rcases h with h | h | h
    · exact Or.inr (Or.inl h)
    · exact Or.inr (Or.inr (Or.inl h))
    · exact Or.inr (Or.inr (Or.inr h))

theorem claim2_boundary_safety_witness :
    1 ≤ 1 ∧ (0 : Nat) ≤ ([128] : List Nat).length ∧
      ((((window [128] 0 1).1 = 0 ∨ (window [128] 0 1).1 = ([128] : List Nat).length ∨
        is_codepoint_boundary (([128] : List Nat).getD (window [128] 0 1).1 0) = true ∨
        ((window [128] 0 1).1 = (window_unadjusted [128] 0 1).1 ∧
          adjust_index_up [128] (window_unadjusted [128] 0 1).1 = none ∧
          adjust_index_down [128] (window_unadjusted [128] 0 1).1 = none)) ∧
      ((window [128] 0 1).2 = 0 ∨ (window [128] 0 1).2 = ([128] : List Nat).length ∨
        is_codepoint_boundary (([128] : List Nat).getD (window [128] 0 1).2 0) = true ∨
        ((window [128] 0 1).2 = (window_unadjusted [128] 0 1).2 ∧
          adjust_index_down [128] (window_unadjusted [128] 0 1).2 = none ∧
          adjust_index_up [128] (window_unadjusted [128] 0 1).2 = none)))) :=
  ⟨by decide, by decide, claim2_boundary_safety [128] 0 1 (by decide) (by decide)⟩

/-- C3: when the buffer is longer than the budget, the unadjusted window is
computed by exactly the spec's case analysis in priority order (end-anchored,
then start-anchored, then centered). -/
theorem claim3_unadjusted_window_cases (bytes : List Nat) (e budget : Nat)
    (h : budget < bytes.length) :
    window_unadjusted bytes e budget = window_unadjusted_spec bytes.length e budget := by
  unfold window_unadjusted window_unadjusted_spec
  rw [if_neg (by omega)]

theorem claim3_unadjusted_window_cases_witness :
    1 < ([97, 128, 98] : List Nat).length ∧
      window_unadjusted [97, 128, 98] 1 1 = window_unadjusted_spec 3 1 1 :=
  ⟨by decide, claim3_unadjusted_window_cases [97, 128, 98] 1 1 (by decide)⟩

/-- C4 as stated is false: with an odd budget the centered case yields
`2 * (budget / 2) = budget - 1` bytes, not exactly `budget`. Concretely, ten
bytes `aaaaa 0x80 aaaa` with `error_offset = 5` and budget 3 give the
unadjusted window `4..6` of width 2. -/
theorem claim4_counterexample :
    3 < ([97, 97, 97, 97, 97, 128, 97, 97, 97, 97] : List Nat).length ∧
      ¬((window_unadjusted [97, 97, 97, 97, 97, 128, 97, 97, 97, 97] 5 3).2 -
          (window_unadjusted [97, 97, 97, 97, 97, 128, 97, 97, 97, 97] 5 3).1 = 3) := by
  decide

/-- C4 (amended): when the buffer is longer than the budget, the unadjusted
window contains between `budget - 1` and `budget` bytes (exactly `budget`
except in the centered case with an odd budget); boundary adjustment moves each
endpoint by at most 3 bytes, so the adjusted window contains at most
`budget + 6` bytes (it can exceed `budget` when an endpoint grows outward). -/
theorem claim4_window_size_bounds (bytes : List Nat) (e budget : Nat)
    (hlen : budget < bytes.length) :
    budget - 1 ≤
        (window_unadjusted bytes e budget).2 - (window_unadjusted bytes e budget).1 ∧
      (window_unadjusted bytes e budget).2 - (window_unadjusted bytes e budget).1 ≤ budget ∧
      (window bytes e budget).2 - (window bytes e budget).1 ≤ budget + 6 := by
  have hf := window_unadjusted_facts bytes e budget hlen
  have h1 := windowStart_bounds bytes (window_unadjusted bytes e budget).1
  have h2 := windowStop_bounds bytes (window_unadjusted bytes e budget).2
  simp only [window]
  omega

theorem claim4_window_size_bounds_witness :
    3 < ([97, 97, 97, 97, 97, 128, 97, 97, 97, 97] : List Nat).length ∧
      (3 - 1 ≤ (window_unadjusted [97, 97, 97, 97, 97, 128, 97, 97, 97, 97] 5 3).2 -
          (window_unadjusted [97, 97, 97, 97, 97, 128, 97, 97, 97, 97] 5 3).1 ∧
        (window_unadjusted [97, 97, 97, 97, 97, 128, 97, 97, 97, 97] 5 3).2 -
            (window_unadjusted [97, 97, 97, 97, 97, 128, 97, 97, 97, 97] 5 3).1 ≤ 3 ∧
        (window [97, 97, 97, 97, 97, 128, 97, 97, 97, 97] 5 3).2 -
            (window [97, 97, 97, 97, 97, 128, 97, 97, 97, 97] 5 3).1 ≤ 3 + 6) :=
  ⟨by decide, claim4_window_size_bounds [97, 97, 97, 97, 97, 128, 97, 97, 97, 97] 5 3 (by decide)⟩

/-- C5 as stated is false: the claim says endpoints equal to 0 or to the
buffer length are never adjusted, but the code only skips a *start* equal to 0
and an *end* equal to the length. On the buffer `[0x80, 0x61]` with
`error_offset = 0` and budget 1 the unadjusted window is `0..0` and the end
endpoint, although equal to 0, sits on the continuation byte `0x80` and is
adjusted up to 1. -/
theorem claim5_counterexample :
    window_unadjusted [128, 97] 0 1 = (0, 0) ∧ (window [128, 97] 0 1).2 ≠ 0 := by
  decide

/-- C5 (amended): a start endpoint equal to 0 is never adjusted, and an end
endpoint equal to the buffer length is never adjusted; any other endpoint
sitting on a continuation byte is replaced by the nearest boundary byte within
3 bytes in the shrinking direction, else within 3 bytes in the growing
direction, else kept unchanged — where for start shrinking means upward and
for end downward. -/
theorem claim5_adjustment_policy (bytes : List Nat) (e budget : Nat) :
    ((window_unadjusted bytes e budget).1 = 0 →
      (window bytes e budget).1 = (window_unadjusted bytes e budget).1) ∧
    ((window_unadjusted bytes e budget).1 ≠ 0 →
      is_codepoint_boundary (bytes.getD (window_unadjusted bytes e budget).1 0) = false →
      (window bytes e budget).1 =
        ((specScanUp bytes (window_unadjusted bytes e budget).1).orElse
          (fun _ => specScanDown bytes (window_unadjusted bytes e budget).1)).getD
          (window_unadjusted bytes e budget).1) ∧
    ((window_unadjusted bytes e budget).2 = bytes.length →
      (window bytes e budget).2 = (window_unadjusted bytes e budget).2) ∧
    ((window_unadjusted bytes e budget).2 ≠ bytes.length →
      is_codepoint_boundary (bytes.getD (window_unadjusted bytes e budget).2 0) = false →
      (window bytes e budget).2 =
        ((specScanDown bytes (window_unadjusted bytes e budget).2).orElse
          (fun _ => specScanUp bytes (window_unadjusted bytes e budget).2)).getD
          (window_unadjusted bytes e budget).2) := by
  refine ⟨?_, ?_, ?_, ?_⟩
  · intro h
    simp only [window]
    unfold windowStart
    rw [if_neg (by simp [h])]
  · intro h1 h2
    simp only [window]
    unfold windowStart
    rw [if_pos ⟨h1, h2⟩, adjust_index_up_eq, adjust_index_down_eq]
  · intro h
    simp only [window]
    unfold windowStop
    rw [if_neg (by simp [h])]
  · intro h1 h2
    simp only [window]
    unfold windowStop
    rw [if_pos ⟨h1, h2⟩, adjust_index_up_eq, adjust_index_down_eq]

theorem claim5_adjustment_policy_witness :
    (window_unadjusted [97, 128, 98] 1 1).1 ≠ 0 ∧
      is_codepoint_boundary (([97, 128, 98] : List Nat).getD
        (window_unadjusted [97, 128, 98] 1 1).1 0) = false ∧
      (window [97, 128, 98] 1 1).1 =
        ((specScanUp [97, 128, 98] (window_unadjusted [97, 128, 98] 1 1).1).orElse
          (fun _ => specScanDown [97, 128, 98] (window_unadjusted [97, 128, 98] 1 1).1)).getD
          (window_unadjusted [97, 128, 98] 1 1).1 :=
  ⟨by decide, by decide,
    (claim5_adjustment_policy [97, 128, 98] 1 1).2.1 (by decide) (by decide)⟩

/-- C6: for a buffer no longer than the budget the selected range is the whole
buffer and the rendered output is exactly the quoted lossy decoding, with no
truncation markers. -/
theorem claim6_no_truncation (bytes : List Nat) (e budget : Nat)
    (h : bytes.length ≤ budget) :
    window bytes e budget = (0, bytes.length) ∧
      contextDisplay bytes e budget = some (quoteDebug (utf8Lossy bytes)) := by
  have hw : window_unadjusted bytes e budget = (0, bytes.length) := by
    unfold window_unadjusted
    rw [if_pos h]
  constructor
  · simp only [window, hw]
    unfold windowStart windowStop
    simp
  · unfold contextDisplay
    rw [if_pos h]

theorem claim6_no_truncation_witness :
    ([128] : List Nat).length ≤ 1 ∧
      (window [128] 0 1 = (0, ([128] : List Nat).length) ∧
        contextDisplay [128] 0 1 = some (quoteDebug (utf8Lossy [128]))) :=
  ⟨by decide, claim6_no_truncation [128] 0 1 (by decide)⟩

/-- C7: whenever a buffer longer than the budget is successfully rendered, the
elided-byte counts (the window's start, and the buffer length minus the
window's end, 0 meaning an absent marker) plus the window width sum to the
buffer length. -/
theorem claim7_truncation_counts (bytes : List Nat) (e budget : Nat) (out : List Nat)
    (hlen : budget < bytes.length) (hout : contextDisplay bytes e budget = some out) :
    (window bytes e budget).1 +
        ((window bytes e budget).2 - (window bytes e budget).1) +
        (bytes.length - (window bytes e budget).2) = bytes.length := by
  rcases contextDisplay_some hlen hout with ⟨h1, h2, -⟩
  omega

theorem claim7_truncation_counts_witness :
    1 < ([128, 97] : List Nat).length ∧
      contextDisplay [128, 97] 0 1 =
        some [34, 65533, 34, 32, 91, 49, 32, 98, 121, 116, 101, 93] ∧
      (window [128, 97] 0 1).1 +
          ((window [128, 97] 0 1).2 - (window [128, 97] 0 1).1) +
          (([128, 97] : List Nat).length - (window [128, 97] 0 1).2) =
        ([128, 97] : List Nat).length :=
  ⟨by decide, by decide,
    claim7_truncation_counts [128, 97] 0 1
      [34, 65533, 34, 32, 91, 49, 32, 98, 121, 116, 101, 93] (by decide) (by decide)⟩

/-- C8: a count of 1 renders as the marker `[1 byte]` and any other count `n`
as `[n bytes]`; in a successfully rendered truncated output, a leading marker
is present (the output starts with the code of the opening bracket rather than
the quote) iff the before-count is positive, and a trailing marker is present
(the output ends with the code of the closing bracket) iff the after-count is
positive. -/
theorem claim8_marker_format (n : Nat) (bytes : List Nat) (e budget : Nat)
    (out : List Nat) (hn : n ≠ 1) (hlen : budget < bytes.length)
    (hout : contextDisplay bytes e budget = some out) :
    byteCount 1 = strCodes "[1 byte]" ∧
      byteCount n = strCodes "[" ++ natDigits n ++ strCodes " bytes]" ∧
      (out.head? = some 91 ↔ (window bytes e budget).1 ≠ 0) ∧
      (out.getLast? = some 93 ↔ bytes.length - (window bytes e budget).2 ≠ 0) := by
  rcases contextDisplay_some hlen hout with ⟨-, -, houteq⟩
  subst houteq
  refine ⟨by decide, ?_, ?_, ?_⟩
  · unfold byteCount
    rw [if_neg hn]
    rw [(by decide : strCodes "[" = [91]),
      (by decide : strCodes " bytes]" = [32, 98, 121, 116, 101, 115, 93])]
    simp
  · by_cases hpre : (window bytes e budget).1 ≠ 0
    · rw [if_pos hpre]
      refine iff_of_true ?_ hpre
      rw [List.head?_append_of_ne_nil _ (by simp [byteCount_ne_nil]),
        List.head?_append_of_ne_nil _ (by simp [byteCount_ne_nil]),
        List.head?_append_of_ne_nil _ (byteCount_ne_nil _)]
      exact byteCount_head _
    · rw [if_neg hpre]
      refine iff_of_false ?_ hpre
      rw [List.nil_append, List.head?_append_of_ne_nil _ (quoteDebug_ne_nil _),
        quoteDebug_head]
      decide
  · by_cases hpost : bytes.length - (window bytes e budget).2 ≠ 0
    · rw [if_pos hpost]
      refine iff_of_true ?_ hpost
      rw [List.getLast?_append_of_ne_nil _ (by simp [byteCount_ne_nil]),
        List.getLast?_append_of_ne_nil _ (byteCount_ne_nil _)]
      exact byteCount_getLast _
    · rw [if_neg hpost]
      refine iff_of_false ?_ hpost
      rw [List.append_nil, List.getLast?_append_of_ne_nil _ (quoteDebug_ne_nil _),
        quoteDebug_getLast]
      decide

theorem claim8_marker_format_witness :
    (2 : Nat) ≠ 1 ∧ 1 < ([128, 97] : List Nat).length ∧
      contextDisplay [128, 97] 0 1 =
        some [34, 65533, 34, 32, 91, 49, 32, 98, 121, 116, 101, 93] ∧
      (byteCount 1 = strCodes "[1 byte]" ∧
        byteCount 2 = strCodes "[" ++ natDigits 2 ++ strCodes " bytes]" ∧
        (([34, 65533, 34, 32, 91, 49, 32, 98, 121, 116, 101, 93] : List Nat).head? = some 91 ↔
          (window [128, 97] 0 1).1 ≠ 0) ∧
        (([34, 65533, 34, 32, 91, 49, 32, 98, 121, 116, 101, 93] : List Nat).getLast? = some 93 ↔
          ([128, 97] : List Nat).length - (window [128, 97] 0 1).2 ≠ 0)) :=
  ⟨by decide, by decide, by decide,
    claim8_marker_format 2 [128, 97] 0 1
      [34, 65533, 34, 32, 91, 49, 32, 98, 121, 116, 101, 93]
      (by decide) (by decide) (by decide)⟩

/-- C9: the boundary classification (the signed-byte bit trick
`(byte as i8) >= -0x40`) returns true exactly on non-continuation bytes,
i.e. bytes below 128 or at least 192. -/
theorem claim9_boundary_predicate :
    ∀ b, b < 256 → (is_codepoint_boundary b = true ↔ (b < 128 ∨ 192 ≤ b)) := by
  decide

theorem claim9_boundary_predicate_witness :
    160 < 256 ∧ (is_codepoint_boundary 160 = true ↔ (160 < 128 ∨ 192 ≤ 160)) :=
  ⟨by decide, claim9_boundary_predicate 160 (by decide)⟩

/-- C10: the unadjusted window always brackets the error offset: its start is
at most the error offset and its end at least the error offset, in all
anchoring cases and the whole-buffer case. -/
theorem claim10_window_brackets_error (bytes : List Nat) (e budget : Nat)
    (he : e ≤ bytes.length) (hb : 1 ≤ budget) :
    (window_unadjusted bytes e budget).1 ≤ e ∧ e ≤ (window_unadjusted bytes e budget).2 :=
  window_unadjusted_le bytes e budget he hb

theorem claim10_window_brackets_error_witness :
    (5 : Nat) ≤ ([97, 97, 97, 97, 97, 128, 97, 97, 97, 97] : List Nat).length ∧ 1 ≤ 3 ∧
      ((window_unadjusted [97, 97, 97, 97, 97, 128, 97, 97, 97, 97] 5 3).1 ≤ 5 ∧
        5 ≤ (window_unadjusted [97, 97, 97, 97, 97, 128, 97, 97, 97, 97] 5 3).2) :=
  ⟨by decide, by decide,
    claim10_window_brackets_error [97, 97, 97, 97, 97, 128, 97, 97, 97, 97] 5 3
      (by decide) (by decide)⟩

end Utf8Command
